import Mathlib

/-!
Verification of the recipe segmentation and chunk-indexing pipeline of the
Cooking-Assistant repository (notebook 01_data_preparation.ipynb).

The pipeline: extract pages as (page_number, text) rows, extract the table of
contents as (level, title, page_number) rows, keep the toc entries at the
recipe level, keep the pages in the content range, sort both by page number,
assign each page to its nearest preceding toc entry with a backward as-of
merge, group the pages by title in first-seen order joining their text with a
single space, and finally split every recipe description into bounded
overlapping chunks that are tagged with the recipe title.
-/

/-- Row of book_df: columns page_number and text, one row per physical page. -/
structure Page where
  page_number : Nat
  text : String
deriving DecidableEq

/-- Row of doc_toc: columns level, title and page_number, in outline order. -/
structure TocEntry where
  level : Nat
  title : String
  page_number : Nat
deriving DecidableEq

/-- Row of recipes_combined: columns recipe (the title) and description. -/
structure Recipe where
  recipe : String
  description : String
deriving DecidableEq

/-- Row of the docs list: a chunk with the owning recipe in its metadata. -/
structure Document where
  page_content : List Char
  recipe : String
deriving DecidableEq

/-- Embeds doc_toc[doc_toc[level] == recipe_level]. -/
def filterLevel (toc : List TocEntry) (recipe_level : Nat) : List TocEntry :=
  toc.filter (fun e => e.level == recipe_level)

/-- Embeds book_df[book_df[page_number].between(lo, hi)], an inclusive range. -/
def between_filter (pages : List Page) (lo hi : Nat) : List Page :=
  pages.filter (fun p => decide (lo ≤ p.page_number ∧ p.page_number ≤ hi))

/-- Stable insertion of x into a list sorted by key: x goes before the first
element whose key is at least the key of x. -/
def sv_insert {α : Type} (key : α → Nat) (x : α) : List α → List α
  | [] => [x]
  | y :: ys => if key x ≤ key y then x :: y :: ys else y :: sv_insert key x ys

/-- Embeds DataFrame.sort_values on a numeric column as an insertion sort by
the given key. The notebook uses the default kind=quicksort, for which pandas
leaves the relative order of rows with equal keys unspecified; this embedding
fixes one admissible tie order, and no theorem below depends on it: only
membership and sortedness of the result are used. -/
def sort_values {α : Type} (key : α → Nat) : List α → List α
  | [] => []
  | x :: xs => sv_insert key x (sort_values key xs)

/-- Embeds recipes_toc after its sort_values call: the toc filtered to the
recipe level and sorted ascending by page number. -/
def recipes_toc (toc : List TocEntry) (recipe_level : Nat) : List TocEntry :=
  sort_values TocEntry.page_number (filterLevel toc recipe_level)

/-- Embeds recipes_df after its sort_values call: the pages restricted to the
inclusive content range and sorted ascending by page number. -/
def recipes_df (pages : List Page) (lo hi : Nat) : List Page :=
  sort_values Page.page_number (between_filter pages lo hi)

/-- Backward as-of lookup of pd.merge_asof(..., direction=backward): the last
row of the sorted right table whose on-key is at most k, none when no row
qualifies (a NaN match in pandas). -/
def asofBackward (toc : List TocEntry) (k : Nat) : Option TocEntry :=
  (toc.filter (fun e => decide (e.page_number ≤ k))).getLast?

/-- Title column of the as-of match. -/
def asof_title (toc : List TocEntry) (k : Nat) : Option String :=
  (asofBackward toc k).map TocEntry.title

/-- Embeds pd.merge_asof(recipes_df, recipes_toc, on=page_number,
direction=backward): every page row paired with the title of its as-of match;
none models the NaN title of a page that precedes every toc entry. -/
def merge_asof (left : List Page) (right : List TocEntry) :
    List (Option String × Page) :=
  left.map (fun p => (asof_title right p.page_number, p))

/-- First-seen-order deduplication of a key list. -/
def dedupFS : List String → List String
  | [] => []
  | t :: ts => t :: (dedupFS ts).filter (fun u => u != t)

/-- Embeds groupby(title, sort=False) over rows that carry a non-NaN title:
one group per distinct title in first-seen order, each group listing the pages
of its rows in input order. -/
def groupby_title (rows : List (String × Page)) : List (String × List Page) :=
  (dedupFS (rows.map Prod.fst)).map
    (fun t => (t, (rows.filter (fun r => r.1 == t)).map Prod.snd))

/-- Rows of the merged table that survive the NaN-title dropping performed by
groupby: the title becomes a plain key. -/
def merged_rows (pages : List Page) (toc : List TocEntry)
    (recipe_level lo hi : Nat) : List (String × Page) :=
  (merge_asof (recipes_df pages lo hi) (recipes_toc toc recipe_level)).filterMap
    (fun r => r.1.map (fun t => (t, r.2)))

/-- Groups of pages per recipe title produced by the pipeline. -/
def groups_of (pages : List Page) (toc : List TocEntry)
    (recipe_level lo hi : Nat) : List (String × List Page) :=
  groupby_title (merged_rows pages toc recipe_level lo hi)

/-- Embeds recipes_combined: level filter, range filter, sorts, as-of merge,
first-seen groupby on title, and a single-space join of each group. -/
def assign (pages : List Page) (toc : List TocEntry)
    (recipe_level lo hi : Nat) : List Recipe :=
  (groups_of pages toc recipe_level lo hi).map
    (fun g =>
      { recipe := g.1
        description := String.intercalate (" ") (g.2.map Page.text) })

/-- Titles of the groups whose page list contains the page p: the recipes that
p is assigned to by the pipeline. -/
def assignedRecipes (pages : List Page) (toc : List TocEntry)
    (recipe_level lo hi : Nat) (p : Page) : List String :=
  ((groups_of pages toc recipe_level lo hi).filter
      (fun g => decide (p ∈ g.2))).map Prod.fst

/-- Modelled from the spec: the notebook delegates chunking to langchain
RecursiveCharacterTextSplitter, whose implementation is not part of this
repository. Separator priority per the spec policy: paragraph break, line
break, sentence-ending punctuation followed by a space, then plain space; the
hard character cut is the final fallback applied when none of these occurs. -/
def separators : List (List Char) :=
  ["\n\n".data, "\n".data, ". ".data, "! ".data, "? ".data, " ".data]

/-- Tests whether an occurrence of sep inside s ends exactly at position p. -/
def sepEndsAt (s sep : List Char) (p : Nat) : Bool :=
  decide (sep.length ≤ p) && ((s.take p).drop (p - sep.length) == sep)

/-- Candidate cut positions for one separator: positions p with
chunk_overlap < p and p at most chunk_size at which sep ends, ascending. -/
def cutCandidates (s sep : List Char) (chunk_size chunk_overlap : Nat) :
    List Nat :=
  (List.range (chunk_size + 1)).filter
    (fun p => decide (chunk_overlap < p) && sepEndsAt s sep p)

/-- Greedy cut for one separator: the largest candidate position, if any. -/
def sepCut (s sep : List Char) (chunk_size chunk_overlap : Nat) : Option Nat :=
  (cutCandidates s sep chunk_size chunk_overlap).getLast?

/-- Modelled from the spec: the first separator in priority order that admits
a cut determines the cut; when no separator occurs usefully the text is cut
hard at chunk_size characters. -/
def chooseCutFrom (s : List Char) (chunk_size chunk_overlap : Nat) :
    List (List Char) → Nat
  | [] => chunk_size
  | sep :: rest =>
    match sepCut s sep chunk_size chunk_overlap with
    | some p => p
    | none => chooseCutFrom s chunk_size chunk_overlap rest

/-- Cut position chosen for an oversized text. -/
def chooseCut (s : List Char) (chunk_size chunk_overlap : Nat) : Nat :=
  chooseCutFrom s chunk_size chunk_overlap separators

/-- Modelled from the spec: recursive bounded splitting with overlap. An empty
text yields no chunk and a text of at most chunk_size characters is one chunk;
an oversized text is cut at the position chosen by the separator priority and
splitting resumes chunk_overlap characters before the cut, so consecutive
chunks share exactly chunk_overlap characters of context. The fuel argument
only bounds the recursion depth; it is sufficient whenever it is at least the
length of the text, since every step consumes at least one character. -/
def splitLoop (fuel : Nat) (s : List Char) (chunk_size chunk_overlap : Nat) :
    List (List Char) :=
  match fuel with
  | 0 => []
  | fuel + 1 =>
    if s.isEmpty then []
    else if s.length ≤ chunk_size then [s]
    else
      s.take (chooseCut s chunk_size chunk_overlap)
        :: splitLoop fuel
          (s.drop (chooseCut s chunk_size chunk_overlap - chunk_overlap))
          chunk_size chunk_overlap

/-- Modelled from the spec: split_text of the configured splitter. -/
def split_text (s : List Char) (chunk_size chunk_overlap : Nat) :
    List (List Char) :=
  splitLoop s.length s chunk_size chunk_overlap

/-- Undo the overlap: drop the trailing chunk_overlap characters of every
chunk except the last one, then concatenate. -/
def reconstruct (chunk_overlap : Nat) : List (List Char) → List Char
  | [] => []
  | [f] => f
  | f :: g :: rest =>
    f.take (f.length - chunk_overlap) ++ reconstruct chunk_overlap (g :: rest)

/-- Embeds the docs-building loop of the notebook: each recipe description is
split into chunks and every chunk becomes a Document tagged with the recipe
title in its metadata. -/
def make_docs (recipes : List Recipe) (chunk_size chunk_overlap : Nat) :
    List Document :=
  recipes.flatMap (fun row =>
    (split_text row.description.data chunk_size chunk_overlap).map
      (fun chunk => { page_content := chunk, recipe := row.recipe }))

theorem mem_sv_insert {α : Type} (key : α → Nat) (x y : α) (l : List α) :
    y ∈ sv_insert key x l ↔ y = x ∨ y ∈ l := by
  induction l with
  | nil => simp [sv_insert]
  | cons z zs ih =>
    by_cases h : key x ≤ key z
    · simp [sv_insert, h]
    · simp only [sv_insert, if_neg h, List.mem_cons, ih]
      tauto

theorem mem_sort_values {α : Type} (key : α → Nat) (y : α) (l : List α) :
    y ∈ sort_values key l ↔ y ∈ l := by
  induction l with
  | nil => simp [sort_values]
  | cons x xs ih => simp [sort_values, mem_sv_insert, ih]

theorem sorted_sv_insert {α : Type} (key : α → Nat) (x : α) (l : List α)
    (h : l.Pairwise (fun a b => key a ≤ key b)) :
    (sv_insert key x l).Pairwise (fun a b => key a ≤ key b) := by
  induction l with
  | nil => simp [sv_insert]
  | cons z zs ih =>
    rcases List.pairwise_cons.mp h with ⟨hz, hzs⟩
    by_cases hle : key x ≤ key z
    · rw [sv_insert, if_pos hle]
      refine List.pairwise_cons.mpr ⟨?_, h⟩
      intro b hb
      rcases List.mem_cons.mp hb with rfl | hb2
      · exact hle
      · exact Nat.le_trans hle (hz b hb2)
    · rw [sv_insert, if_neg hle]
      refine List.pairwise_cons.mpr ⟨?_, ih hzs⟩
      intro b hb
      rcases (mem_sv_insert key x b zs).mp hb with rfl | hb2
      · exact Nat.le_of_lt (Nat.lt_of_not_le hle)
      · exact hz b hb2

theorem sorted_sort_values {α : Type} (key : α → Nat) (l : List α) :
    (sort_values key l).Pairwise (fun a b => key a ≤ key b) := by
  induction l with
  | nil => simp [sort_values]
  | cons x xs ih => exact sorted_sv_insert key x _ ih

theorem le_key_getLast {α : Type} (key : α → Nat) (l : List α)
    (hs : l.Pairwise (fun a b => key a ≤ key b)) (e : α)
    (hl : l.getLast? = some e) : ∀ x ∈ l, key x ≤ key e := by
  induction l with
  | nil => intro x hx; cases hx
  | cons a t ih =>
    intro x hx
    cases t with
    | nil =>
      simp at hl hx
      rw [hx, hl]
    | cons b t2 =>
      rw [List.getLast?_cons_cons] at hl
      rcases List.mem_cons.mp hx with rfl | hx2
      · have he : e ∈ b :: t2 := List.mem_of_mem_getLast? hl
        exact (List.pairwise_cons.mp hs).1 e he
      · exact ih (List.pairwise_cons.mp hs).2 hl x hx2

theorem asofBackward_mem {toc : List TocEntry} {k : Nat} {e : TocEntry}
    (h : asofBackward toc k = some e) : e ∈ toc ∧ e.page_number ≤ k := by
  have hm : e ∈ toc.filter (fun x => decide (x.page_number ≤ k)) :=
    List.mem_of_mem_getLast? h
  rcases List.mem_filter.mp hm with ⟨h1, h2⟩
  exact ⟨h1, by simpa using h2⟩

theorem asofBackward_maximal (toc : List TocEntry) (k : Nat) (e : TocEntry)
    (hs : toc.Pairwise (fun a b => a.page_number ≤ b.page_number))
    (h : asofBackward toc k = some e) :
    ∀ x ∈ toc, x.page_number ≤ k → x.page_number ≤ e.page_number := by
  intro x hx hk
  have h1 : x ∈ toc.filter (fun y => decide (y.page_number ≤ k)) :=
    List.mem_filter.mpr ⟨hx, by simpa using hk⟩
  exact le_key_getLast TocEntry.page_number _ (hs.filter _) e h x h1

theorem asofBackward_isSome (toc : List TocEntry) (k : Nat) (e0 : TocEntry)
    (h0 : e0 ∈ toc) (hle : e0.page_number ≤ k) :
    ∃ e, asofBackward toc k = some e := by
  have hne : toc.filter (fun y => decide (y.page_number ≤ k)) ≠ [] := by
    intro hnil
    have hm : e0 ∈ toc.filter (fun y => decide (y.page_number ≤ k)) :=
      List.mem_filter.mpr ⟨h0, by simpa using hle⟩
    rw [hnil] at hm
    cases hm
  cases hx : (toc.filter (fun y => decide (y.page_number ≤ k))).getLast? with
  | none => exact absurd (List.getLast?_eq_none_iff.mp hx) hne
  | some e => exact ⟨e, hx⟩

theorem asofBackward_none (toc : List TocEntry) (k : Nat)
    (h : ∀ e ∈ toc, k < e.page_number) : asofBackward toc k = none := by
  unfold asofBackward
  rw [List.filter_eq_nil_iff.mpr (fun e he => by simpa using h e he)]
  rfl

theorem head_min {α : Type} (key : α → Nat) (l : List α)
    (hs : l.Pairwise (fun a b => key a ≤ key b)) (e0 : α)
    (h0 : l.head? = some e0) : ∀ x ∈ l, key e0 ≤ key x := by
  cases l with
  | nil => cases h0
  | cons a t =>
    have ha : e0 = a := by simpa using h0.symm
    subst ha
    intro x hx
    rcases List.mem_cons.mp hx with rfl | hx2
    · exact Nat.le_refl _
    · exact (List.pairwise_cons.mp hs).1 x hx2

theorem mem_dedupFS (t : String) (l : List String) : t ∈ dedupFS l ↔ t ∈ l := by
  induction l with
  | nil => simp [dedupFS]
  | cons a as ih =>
    by_cases h : t = a
    · subst h; simp [dedupFS]
    · simp [dedupFS, List.mem_filter, ih, h]

theorem nodup_dedupFS (l : List String) : (dedupFS l).Nodup := by
  induction l with
  | nil => simp [dedupFS]
  | cons a as ih =>
    rw [dedupFS]
    refine List.nodup_cons.mpr ⟨?_, ih.filter _⟩
    intro hmem
    rcases List.mem_filter.mp hmem with ⟨_, hbne⟩
    simp at hbne

theorem mem_recipes_df {pages : List Page} {lo hi : Nat} {p : Page} :
    p ∈ recipes_df pages lo hi
      ↔ p ∈ pages ∧ lo ≤ p.page_number ∧ p.page_number ≤ hi := by
  unfold recipes_df between_filter
  rw [mem_sort_values]
  simp [List.mem_filter, and_assoc]

theorem mem_recipes_toc {toc : List TocEntry} {lvl : Nat} {e : TocEntry} :
    e ∈ recipes_toc toc lvl ↔ e ∈ toc ∧ e.level = lvl := by
  unfold recipes_toc filterLevel
  rw [mem_sort_values]
  simp [List.mem_filter]

theorem sorted_recipes_toc (toc : List TocEntry) (lvl : Nat) :
    (recipes_toc toc lvl).Pairwise (fun a b => a.page_number ≤ b.page_number) :=
  sorted_sort_values TocEntry.page_number _

theorem merged_rows_eq (pages : List Page) (toc : List TocEntry)
    (lvl lo hi : Nat) :
    merged_rows pages toc lvl lo hi
      = (recipes_df pages lo hi).filterMap
          (fun p => (asof_title (recipes_toc toc lvl) p.page_number).map
            (fun t => (t, p))) := by
  unfold merged_rows merge_asof
  rw [List.filterMap_map]
  rfl

theorem mem_merged_rows {pages : List Page} {toc : List TocEntry}
    {lvl lo hi : Nat} {t : String} {p : Page} :
    (t, p) ∈ merged_rows pages toc lvl lo hi
      ↔ p ∈ recipes_df pages lo hi
        ∧ asof_title (recipes_toc toc lvl) p.page_number = some t := by
  rw [merged_rows_eq]
  simp only [List.mem_filterMap, Option.map_eq_some']
  constructor
  · rintro ⟨q, hq, t', ht', heq⟩
    rcases Prod.mk.injEq .. ▸ heq with ⟨rfl, rfl⟩
    exact ⟨hq, ht'⟩
  · rintro ⟨hp, ht⟩
    exact ⟨p, hp, t, ht, rfl⟩

theorem mem_group_iff (rows : List (String × Page)) (t : String) (p : Page) :
    p ∈ (rows.filter (fun r => r.1 == t)).map Prod.snd ↔ (t, p) ∈ rows := by
  simp only [List.mem_map, List.mem_filter]
  constructor
  · rintro ⟨r, ⟨hr, hbeq⟩, rfl⟩
    have ht : r.1 = t := by simpa using hbeq
    rw [← ht]
    exact Prod.mk.eta ▸ hr
  · intro h
    exact ⟨(t, p), ⟨h, by simp⟩, rfl⟩

theorem filter_map_fst (keys : List String) (F : String → String × List Page)
    (hF : ∀ t, (F t).1 = t) (pred : String × List Page → Bool) :
    ((keys.map F).filter pred).map Prod.fst
      = keys.filter (fun t => pred (F t)) := by
  induction keys with
  | nil => rfl
  | cons t ts ih =>
    rw [List.map_cons, List.filter_cons, List.filter_cons]
    by_cases h : pred (F t)
    · simp [h, ih, hF t]
    · simp [h, ih]

theorem assignedRecipes_eq (pages : List Page) (toc : List TocEntry)
    (lvl lo hi : Nat) (p : Page) :
    assignedRecipes pages toc lvl lo hi p
      = (dedupFS ((merged_rows pages toc lvl lo hi).map Prod.fst)).filter
          (fun t => decide ((t, p) ∈ merged_rows pages toc lvl lo hi)) := by
  unfold assignedRecipes groups_of groupby_title
  rw [filter_map_fst _ _ (fun t => rfl)]
  refine List.filter_congr ?_
  intro t _
  rw [decide_eq_decide]
  exact mem_group_iff _ t p

theorem filter_eq_of_nodup {l : List String} {a : String} (hn : l.Nodup)
    (ha : a ∈ l) : l.filter (fun x => decide (x = a)) = [a] := by
  induction l with
  | nil => cases ha
  | cons b bs ih =>
    rcases List.mem_cons.mp ha with rfl | ha2
    · have hbs : bs.filter (fun x => decide (x = a)) = [] := by
        refine List.filter_eq_nil_iff.mpr ?_
        intro x hx
        simp only [decide_eq_true_eq]
        rintro rfl
        exact (List.nodup_cons.mp hn).1 hx
      simp [List.filter_cons, hbs]
    · have hba : ¬ b = a := by
        rintro rfl
        exact (List.nodup_cons.mp hn).1 ha2
      simp [List.filter_cons, hba, ih (List.nodup_cons.mp hn).2 ha2]

theorem assignedRecipes_single (pages : List Page) (toc : List TocEntry)
    (lvl lo hi : Nat) (p : Page) (t0 : String)
    (h : (t0, p) ∈ merged_rows pages toc lvl lo hi)
    (huniq : ∀ t, (t, p) ∈ merged_rows pages toc lvl lo hi → t = t0) :
    assignedRecipes pages toc lvl lo hi p = [t0] := by
  rw [assignedRecipes_eq]
  have hcongr : ∀ t ∈ dedupFS ((merged_rows pages toc lvl lo hi).map Prod.fst),
      decide ((t, p) ∈ merged_rows pages toc lvl lo hi) = decide (t = t0) := by
    intro t _
    rw [decide_eq_decide]
    exact ⟨fun hm => huniq t hm, fun he => he ▸ h⟩
  rw [List.filter_congr hcongr]
  refine filter_eq_of_nodup (nodup_dedupFS _) ?_
  rw [mem_dedupFS]
  exact List.mem_map.mpr ⟨(t0, p), h, rfl⟩

theorem assignedRecipes_nil (pages : List Page) (toc : List TocEntry)
    (lvl lo hi : Nat) (p : Page)
    (h : ∀ t, (t, p) ∉ merged_rows pages toc lvl lo hi) :
    assignedRecipes pages toc lvl lo hi p = [] := by
  rw [assignedRecipes_eq]
  refine List.filter_eq_nil_iff.mpr ?_
  intro t _
  simp only [decide_eq_true_eq]
  exact h t

theorem row_before_first {pages : List Page} {toc : List TocEntry}
    {lvl lo hi : Nat} {p : Page} {e0 : TocEntry}
    (h0 : (recipes_toc toc lvl).head? = some e0)
    (hlt : p.page_number < e0.page_number) :
    ∀ t, (t, p) ∉ merged_rows pages toc lvl lo hi := by
  intro t hmem
  rcases mem_merged_rows.mp hmem with ⟨_, ht⟩
  rcases Option.map_eq_some'.mp ht with ⟨e, he, _⟩
  rcases asofBackward_mem he with ⟨hetoc, hek⟩
  have h1 : e0.page_number ≤ e.page_number :=
    head_min TocEntry.page_number _ (sorted_recipes_toc toc lvl) e0 h0 e hetoc
  exact Nat.lt_irrefl _ (Nat.lt_of_le_of_lt (Nat.le_trans h1 hek) hlt)

theorem assigned_single_of_ge_first (pages : List Page) (toc : List TocEntry)
    (lvl lo hi : Nat) (p : Page) (e0 : TocEntry)
    (h0 : (recipes_toc toc lvl).head? = some e0)
    (hp : p ∈ recipes_df pages lo hi)
    (hge : e0.page_number ≤ p.page_number) :
    ∃ t, asof_title (recipes_toc toc lvl) p.page_number = some t ∧
      assignedRecipes pages toc lvl lo hi p = [t] := by
  rcases asofBackward_isSome _ p.page_number e0 (List.mem_of_mem_head? h0) hge
    with ⟨e, he⟩
  refine ⟨e.title, by simp [asof_title, he], ?_⟩
  refine assignedRecipes_single pages toc lvl lo hi p e.title ?_ ?_
  · exact mem_merged_rows.mpr ⟨hp, by simp [asof_title, he]⟩
  · intro t hmem
    rcases mem_merged_rows.mp hmem with ⟨_, ht⟩
    rw [asof_title, he] at ht
    exact (Option.some_inj.mp ht).symm

/-- C1 (amended): with a nonempty boundary list, every page of the content
range whose number is at least the first boundary start page is assigned to
exactly one recipe, a page of the content range that precedes the first
boundary start page is assigned to none, and a page outside the content range
is assigned to none. -/
theorem c1_page_partition (pages : List Page) (toc : List TocEntry)
    (lvl lo hi : Nat) (p : Page) :
    (∀ e0, (recipes_toc toc lvl).head? = some e0 →
      p ∈ recipes_df pages lo hi → e0.page_number ≤ p.page_number →
      ∃ t, asof_title (recipes_toc toc lvl) p.page_number = some t ∧
        assignedRecipes pages toc lvl lo hi p = [t])
    ∧ (∀ e0, (recipes_toc toc lvl).head? = some e0 →
      p.page_number < e0.page_number →
      assignedRecipes pages toc lvl lo hi p = [])
    ∧ (p.page_number < lo ∨ hi < p.page_number →
      assignedRecipes pages toc lvl lo hi p = []) := by
  refine ⟨?_, ?_, ?_⟩
  · intro e0 h0 hp hge
    exact assigned_single_of_ge_first pages toc lvl lo hi p e0 h0 hp hge
  · intro e0 h0 hlt
    exact assignedRecipes_nil pages toc lvl lo hi p (row_before_first h0 hlt)
  · intro hout
    refine assignedRecipes_nil pages toc lvl lo hi p ?_
    intro t hmem
    rcases mem_merged_rows.mp hmem with ⟨hp, _⟩
    rcases mem_recipes_df.mp hp with ⟨_, hlo, hhi⟩
    rcases hout with h | h
    · exact Nat.lt_irrefl _ (Nat.lt_of_lt_of_le h hlo)
    · exact Nat.lt_irrefl _ (Nat.lt_of_le_of_lt hhi h)

/-- C1 counterexample: in a run whose first boundary starts at page 24 while
the content range starts at page 23, the in-range page 23 is present in
recipes_df yet assigned to no recipe, refuting the claim as stated. -/
theorem c1_counterexample :
    (⟨23, "x"⟩ : Page) ∈ recipes_df [⟨23, "x"⟩] 23 449
    ∧ assignedRecipes [⟨23, "x"⟩] [⟨2, "A", 24⟩] 2 23 449 ⟨23, "x"⟩ = [] := by
  constructor
  · decide
  · decide

/-- C1 witness: a concrete run where the amended statement applies. -/
theorem c1_witness :
    ∃ t, asof_title (recipes_toc [⟨2, "A", 23⟩] 2) 23 = some t ∧
      assignedRecipes [⟨23, "x"⟩, ⟨24, "y"⟩] [⟨2, "A", 23⟩] 2 23 449
        ⟨23, "x"⟩ = [t] :=
  (c1_page_partition [⟨23, "x"⟩, ⟨24, "y"⟩] [⟨2, "A", 23⟩] 2 23 449
    ⟨23, "x"⟩).1 ⟨2, "A", 23⟩ (by decide) (by decide) (by decide)

/-- C2: the as-of match of a page is a boundary with the greatest start page
among those at most the page number; a page at or past the first boundary
start always has a match; a page strictly before the first boundary start has
a NaN title and belongs to no recipe, while the pipeline still returns a
value on such input (shown on a concrete run whose only page precedes every
boundary). -/
theorem c2_asof_semantics (pages : List Page) (toc : List TocEntry)
    (lvl lo hi : Nat) (p : Page) :
    (∀ e, asofBackward (recipes_toc toc lvl) p.page_number = some e →
      e ∈ recipes_toc toc lvl ∧ e.page_number ≤ p.page_number ∧
      ∀ x ∈ recipes_toc toc lvl, x.page_number ≤ p.page_number →
        x.page_number ≤ e.page_number)
    ∧ (∀ e0, (recipes_toc toc lvl).head? = some e0 →
        e0.page_number ≤ p.page_number →
        ∃ e, asofBackward (recipes_toc toc lvl) p.page_number = some e)
    ∧ (∀ e0, (recipes_toc toc lvl).head? = some e0 →
        p.page_number < e0.page_number →
        asof_title (recipes_toc toc lvl) p.page_number = none
        ∧ assignedRecipes pages toc lvl lo hi p = [])
    ∧ assign [⟨30, "front"⟩] [⟨2, "A", 40⟩] 2 23 449 = [] := by
  refine ⟨?_, ?_, ?_, by decide⟩
  · intro e he
    rcases asofBackward_mem he with ⟨h1, h2⟩
    exact ⟨h1, h2,
      asofBackward_maximal _ p.page_number e (sorted_recipes_toc toc lvl) he⟩
  · intro e0 h0 hge
    exact asofBackward_isSome _ p.page_number e0 (List.mem_of_mem_head? h0) hge
  · intro e0 h0 hlt
    constructor
    · have hnone : asofBackward (recipes_toc toc lvl) p.page_number = none := by
        refine asofBackward_none _ _ ?_
        intro e he
        exact Nat.lt_of_lt_of_le hlt
          (head_min TocEntry.page_number _ (sorted_recipes_toc toc lvl) e0 h0 e he)
      simp [asof_title, hnone]
    · exact assignedRecipes_nil pages toc lvl lo hi p (row_before_first h0 hlt)

/-- C2 witness: a concrete run exercising the maximality part. -/
theorem c2_witness :
    (⟨2, "A", 23⟩ : TocEntry) ∈ recipes_toc [⟨2, "A", 23⟩, ⟨2, "B", 25⟩] 2
    ∧ TocEntry.page_number ⟨2, "A", 23⟩ ≤ 24
    ∧ ∀ x ∈ recipes_toc [⟨2, "A", 23⟩, ⟨2, "B", 25⟩] 2,
        x.page_number ≤ 24 → x.page_number ≤ TocEntry.page_number ⟨2, "A", 23⟩ :=
  (c2_asof_semantics [] [⟨2, "A", 23⟩, ⟨2, "B", 25⟩] 2 23 449 ⟨24, "y"⟩).1
    ⟨2, "A", 23⟩ (by decide)

theorem rows_filter_snd (l : List Page) (bs : List TocEntry) (t0 : String) :
    ((l.filterMap (fun p => (asof_title bs p.page_number).map
        (fun t => (t, p)))).filter (fun r => r.1 == t0)).map Prod.snd
      = l.filter (fun p => decide (asof_title bs p.page_number = some t0)) := by
  induction l with
  | nil => rfl
  | cons p ps ih =>
    cases hap : asof_title bs p.page_number with
    | none => simp [List.filterMap_cons, hap, List.filter_cons, ih]
    | some t =>
      by_cases hts : t = t0
      · subst hts
        simp [List.filterMap_cons, hap, List.filter_cons, ih]
      · simp [List.filterMap_cons, hap, List.filter_cons, ih, hts]

theorem assign_description (pages : List Page) (toc : List TocEntry)
    (lvl lo hi : Nat) :
    ∀ r ∈ assign pages toc lvl lo hi,
      r.description = String.intercalate (" ")
        (((recipes_df pages lo hi).filter
            (fun q => decide (asof_title (recipes_toc toc lvl) q.page_number
              = some r.recipe))).map Page.text) := by
  intro r hr
  unfold assign groups_of groupby_title at hr
  rcases List.mem_map.mp hr with ⟨g, hg, rfl⟩
  rcases List.mem_map.mp hg with ⟨t, _, rfl⟩
  show String.intercalate (" ")
      ((((merged_rows pages toc lvl lo hi).filter
          (fun rr => rr.1 == t)).map Prod.snd).map Page.text) = _
  rw [merged_rows_eq, rows_filter_snd]

theorem assign_titles (pages : List Page) (toc : List TocEntry)
    (lvl lo hi : Nat) :
    (assign pages toc lvl lo hi).map Recipe.recipe
      = dedupFS ((merged_rows pages toc lvl lo hi).map Prod.fst) := by
  unfold assign groups_of groupby_title
  generalize dedupFS ((merged_rows pages toc lvl lo hi).map Prod.fst) = keys
  induction keys with
  | nil => rfl
  | cons t ts ih =>
    simp only [List.map_cons]
    exact congrArg (List.cons t) ih

/-- C3: the pipeline returns recipes in the first-seen order of their resolved
titles along the page-sorted input, not in alphabetical order, and every
recipe description is the single-space join, in ascending page order, of the
text of exactly the pages assigned to that recipe; the concrete run shows an
output ordered B before A. -/
theorem c3_order_and_description (pages : List Page) (toc : List TocEntry)
    (lvl lo hi : Nat) :
    ((assign pages toc lvl lo hi).map Recipe.recipe
        = dedupFS ((merged_rows pages toc lvl lo hi).map Prod.fst))
    ∧ (∀ r ∈ assign pages toc lvl lo hi,
        r.description = String.intercalate (" ")
          (((recipes_df pages lo hi).filter
              (fun q => decide (asof_title (recipes_toc toc lvl) q.page_number
                = some r.recipe))).map Page.text))
    ∧ assign [⟨10, "x"⟩, ⟨20, "y"⟩] [⟨2, "B", 10⟩, ⟨2, "A", 20⟩] 2 1 100
        = [⟨"B", "x"⟩, ⟨"A", "y"⟩] :=
  ⟨assign_titles pages toc lvl lo hi,
   assign_description pages toc lvl lo hi, by decide⟩

/-- C3 witness: the description formula at a concrete recipe of a concrete
run, with the membership hypothesis discharged by evaluation. -/
theorem c3_witness :
    Recipe.description ⟨"B", "x y"⟩ = String.intercalate (" ")
      (((recipes_df [⟨10, "x"⟩, ⟨11, "y"⟩] 1 100).filter
          (fun q => decide (asof_title
            (recipes_toc [⟨2, "B", 10⟩] 2) q.page_number
              = some (Recipe.recipe ⟨"B", "x y"⟩)))).map Page.text) :=
  (c3_order_and_description [⟨10, "x"⟩, ⟨11, "y"⟩] [⟨2, "B", 10⟩] 2 1 100).2.1
    ⟨"B", "x y"⟩ (by decide)

theorem countP_eq_key (keys : List String) (t : String) (hn : keys.Nodup) :
    keys.countP (fun u => decide (u = t)) = if t ∈ keys then 1 else 0 := by
  rw [List.countP_eq_length_filter]
  by_cases h : t ∈ keys
  · rw [if_pos h, filter_eq_of_nodup hn h]
    rfl
  · rw [if_neg h]
    have : keys.filter (fun u => decide (u = t)) = [] := by
      refine List.filter_eq_nil_iff.mpr ?_
      intro x hx
      simp only [decide_eq_true_eq]
      rintro rfl
      exact h hx
    rw [this]
    rfl

theorem assign_countP (pages : List Page) (toc : List TocEntry)
    (lvl lo hi : Nat) (t : String) :
    (assign pages toc lvl lo hi).countP (fun r => decide (r.recipe = t))
      = (dedupFS ((merged_rows pages toc lvl lo hi).map Prod.fst)).countP
          (fun u => decide (u = t)) := by
  unfold assign groups_of groupby_title
  rw [List.map_map, List.countP_map]
  exact List.countP_congr (fun a _ => Iff.rfl)

/-- C4: distinct boundaries sharing one title yield at most one recipe with
that title; whenever some in-range page resolves to the title there is
exactly one such recipe; and its description is the single-space join of the
text of all pages resolving to the title, in ascending page order, hence it
contains the text of both boundary spans. -/
theorem c4_duplicate_titles (pages : List Page) (toc : List TocEntry)
    (lvl lo hi : Nat) (e1 e2 : TocEntry)
    (h1 : e1 ∈ recipes_toc toc lvl) (h2 : e2 ∈ recipes_toc toc lvl)
    (ht : e1.title = e2.title) (hne : e1.page_number ≠ e2.page_number) :
    ((assign pages toc lvl lo hi).countP
        (fun r => decide (r.recipe = e1.title)) ≤ 1)
    ∧ ((∃ q ∈ recipes_df pages lo hi,
          asof_title (recipes_toc toc lvl) q.page_number = some e1.title) →
        (assign pages toc lvl lo hi).countP
          (fun r => decide (r.recipe = e1.title)) = 1)
    ∧ (∀ r ∈ assign pages toc lvl lo hi, r.recipe = e1.title →
        r.description = String.intercalate (" ")
          (((recipes_df pages lo hi).filter
              (fun q => decide (asof_title (recipes_toc toc lvl) q.page_number
                = some e1.title))).map Page.text)) := by
  refine ⟨?_, ?_, ?_⟩
  · rw [assign_countP,
      countP_eq_key _ _ (nodup_dedupFS _)]
    split <;> omega
  · rintro ⟨q, hq, hqt⟩
    rw [assign_countP, countP_eq_key _ _ (nodup_dedupFS _), if_pos]
    rw [mem_dedupFS]
    refine List.mem_map.mpr ⟨(e1.title, q), ?_, rfl⟩
    exact mem_merged_rows.mpr ⟨hq, hqt⟩
  · intro r hr hrt
    rw [← hrt]
    exact assign_description pages toc lvl lo hi r hr

/-- C4 witness: two boundaries titled A at pages 10 and 14 with pages at 10,
12 and 14; the count and description hypotheses hold by evaluation. -/
theorem c4_witness :
    (assign [⟨10, "x"⟩, ⟨12, "y"⟩, ⟨14, "z"⟩]
        [⟨2, "A", 10⟩, ⟨2, "B", 12⟩, ⟨2, "A", 14⟩] 2 1 100).countP
      (fun r => decide (r.recipe = TocEntry.title ⟨2, "A", 10⟩)) = 1 :=
  (c4_duplicate_titles [⟨10, "x"⟩, ⟨12, "y"⟩, ⟨14, "z"⟩]
      [⟨2, "A", 10⟩, ⟨2, "B", 12⟩, ⟨2, "A", 14⟩] 2 1 100
      ⟨2, "A", 10⟩ ⟨2, "A", 14⟩ (by decide) (by decide) rfl
      (by decide)).2.1
    ⟨⟨10, "x"⟩, by decide, by decide⟩

theorem sepCut_bounds {s sep : List Char} {cs co p : Nat}
    (h : sepCut s sep cs co = some p) : co < p ∧ p ≤ cs := by
  have hm : p ∈ cutCandidates s sep cs co := List.mem_of_mem_getLast? h
  rcases List.mem_filter.mp hm with ⟨hr, hb⟩
  rcases (Bool.and_eq_true _ _).mp hb with ⟨h1, _⟩
  exact ⟨of_decide_eq_true h1, Nat.lt_succ_iff.mp (List.mem_range.mp hr)⟩

theorem chooseCutFrom_bounds (s : List Char) (cs co : Nat) (h : co < cs)
    (seps : List (List Char)) :
    co < chooseCutFrom s cs co seps ∧ chooseCutFrom s cs co seps ≤ cs := by
  induction seps with
  | nil => exact ⟨h, Nat.le_refl cs⟩
  | cons sep rest ih =>
    cases hc : sepCut s sep cs co with
    | some p =>
      simp only [chooseCutFrom, hc]
      exact sepCut_bounds hc
    | none =>
      simp only [chooseCutFrom, hc]
      exact ih

theorem chooseCut_bounds (s : List Char) (cs co : Nat) (h : co < cs) :
    co < chooseCut s cs co ∧ chooseCut s cs co ≤ cs :=
  chooseCutFrom_bounds s cs co h separators

theorem splitLoop_chunks (cs co : Nat) (h : co < cs) :
    ∀ fuel s, ∀ f ∈ splitLoop fuel s cs co, f.length ≤ cs ∧ f ≠ [] := by
  intro fuel
  induction fuel with
  | zero => intro s f hf; cases hf
  | succ n ih =>
    intro s f hf
    rw [splitLoop] at hf
    by_cases hem : s.isEmpty = true
    · rw [if_pos hem] at hf
      cases hf
    · rw [if_neg hem] at hf
      have hsne : s ≠ [] := by
        intro hnil
        rw [hnil] at hem
        exact hem rfl
      by_cases hlen : s.length ≤ cs
      · rw [if_pos hlen] at hf
        rcases List.mem_singleton.mp hf with rfl
        exact ⟨hlen, hsne⟩
      · rw [if_neg hlen] at hf
        rcases List.mem_cons.mp hf with rfl | hf2
        · have hb := chooseCut_bounds s cs co h
          constructor
          · rw [List.length_take]
            exact Nat.le_trans (Nat.min_le_left _ _) hb.2
          · intro hnil
            rcases List.take_eq_nil_iff.mp hnil with h0 | h0
            · omega
            · exact hsne h0
        · exact ih _ f hf2

theorem splitLoop_ne_nil (cs co fuel : Nat) (s : List Char)
    (hs : s ≠ []) (hf : 1 ≤ fuel) : splitLoop fuel s cs co ≠ [] := by
  cases fuel with
  | zero => omega
  | succ n =>
    rw [splitLoop]
    have hem : s.isEmpty = false := by
      cases s with
      | nil => exact absurd rfl hs
      | cons a t => rfl
    rw [hem]
    by_cases hlen : s.length ≤ cs
    · rw [if_pos hlen]
      exact List.cons_ne_nil s []
    · rw [if_neg hlen]
      exact List.cons_ne_nil _ _

theorem splitLoop_reconstruct (cs co : Nat) (h : co < cs) :
    ∀ fuel s, s.length ≤ fuel →
      reconstruct co (splitLoop fuel s cs co) = s := by
  intro fuel
  induction fuel with
  | zero =>
    intro s hs
    have hnil : s = [] := List.length_eq_zero.mp (Nat.le_zero.mp hs)
    subst hnil
    rfl
  | succ n ih =>
    intro s hs
    rw [splitLoop]
    by_cases hem : s.isEmpty = true
    · rw [if_pos hem]
      cases s with
      | nil => rfl
      | cons a t => cases hem
    · rw [if_neg hem]
      have hsne : s ≠ [] := by
        intro hnil
        rw [hnil] at hem
        exact hem rfl
      by_cases hlen : s.length ≤ cs
      · rw [if_pos hlen]
        rfl
      · rw [if_neg hlen]
        have hb := chooseCut_bounds s cs co h
        have hslen : cs < s.length := Nat.lt_of_not_le hlen
        have htne : s.drop (chooseCut s cs co - co) ≠ [] := by
          intro hnil
          have hlen0 := congrArg List.length hnil
          rw [List.length_drop] at hlen0
          simp only [List.length_nil] at hlen0
          omega
        have hrest : splitLoop n (s.drop (chooseCut s cs co - co)) cs co ≠ [] := by
          refine splitLoop_ne_nil cs co n _ htne ?_
          omega
        cases hr : splitLoop n (s.drop (chooseCut s cs co - co)) cs co with
        | nil => exact absurd hr hrest
        | cons g rest2 =>
          rw [reconstruct]
          have hihr : reconstruct co (g :: rest2)
              = s.drop (chooseCut s cs co - co) := by
            rw [← hr]
            refine ih _ ?_
            rw [List.length_drop]
            omega
          rw [hihr]
          have hlt : (s.take (chooseCut s cs co)).length = chooseCut s cs co := by
            rw [List.length_take]
            exact inf_eq_left.mpr (Nat.le_of_lt (Nat.lt_of_le_of_lt hb.2 hslen))
          rw [hlt, List.take_take]
          have hmin : (chooseCut s cs co - co) ⊓ chooseCut s cs co
              = chooseCut s cs co - co := inf_eq_left.mpr (Nat.sub_le _ _)
          rw [hmin]
          exact List.take_append_drop _ s

/-- C5: for every description and parameters with chunk_overlap strictly less
than chunk_size (in particular the configured 1000 and 100), concatenating
the produced chunks after removing the last chunk_overlap characters of every
non-final chunk reconstructs the original text exactly. -/
theorem c5_overlap_reconstruction (s : List Char) (cs co : Nat) (h : co < cs) :
    reconstruct co (split_text s cs co) = s :=
  splitLoop_reconstruct cs co h s.length s (Nat.le_refl _)

/-- C5 witness: a concrete oversized text reassembled exactly. -/
theorem c5_witness :
    reconstruct 1 (split_text ("ab cd ef gh".data) 5 1) = "ab cd ef gh".data :=
  c5_overlap_reconstruction ("ab cd ef gh".data) 5 1 (by decide)

/-- C6 counterexample: on the empty description the splitter returns no chunk
at all rather than one chunk equal to the description, so the claim fails at
length zero. -/
theorem c6_counterexample :
    split_text ([] : List Char) 1000 100 = []
    ∧ split_text ([] : List Char) 1000 100 ≠ [([] : List Char)] := by
  constructor
  · rfl
  · decide

theorem split_text_short (s : List Char) (cs co : Nat) (hne : s ≠ [])
    (hlen : s.length ≤ cs) : split_text s cs co = [s] := by
  rw [split_text]
  cases hl : s.length with
  | zero => exact absurd (List.length_eq_zero.mp hl) hne
  | succ n =>
    rw [splitLoop]
    have hem : s.isEmpty = false := by
      cases s with
      | nil => exact absurd rfl hne
      | cons a t => rfl
    rw [hem]
    rw [if_neg (by simp)]
    rw [if_pos hlen]

/-- C6 (amended): a nonempty description of length at most chunk_size yields
exactly one chunk, equal to the description. -/
theorem c6_single_chunk (s : List Char) (cs co : Nat) (hne : s ≠ [])
    (hlen : s.length ≤ cs) : split_text s cs co = [s] :=
  split_text_short s cs co hne hlen

/-- C6 witness: a short description is returned whole. -/
theorem c6_witness : split_text ("hello".data) 1000 100 = ["hello".data] :=
  c6_single_chunk ("hello".data) 1000 100 (by decide) (by decide)

/-- C7: with chunk_overlap strictly below chunk_size, every chunk produced by
the splitter has at most chunk_size characters and is nonempty, and therefore
every Document built by the docs loop has bounded nonempty page_content. -/
theorem c7_bounded_nonempty (cs co : Nat) (h : co < cs) :
    (∀ s : List Char, ∀ f ∈ split_text s cs co, f.length ≤ cs ∧ f ≠ [])
    ∧ (∀ recipes : List Recipe, ∀ d ∈ make_docs recipes cs co,
        d.page_content.length ≤ cs ∧ d.page_content ≠ []) := by
  have hmain : ∀ s : List Char, ∀ f ∈ split_text s cs co,
      f.length ≤ cs ∧ f ≠ [] :=
    fun s => splitLoop_chunks cs co h s.length s
  refine ⟨hmain, ?_⟩
  intro recipes d hd
  rcases List.mem_flatMap.mp hd with ⟨row, _, hdm⟩
  rcases List.mem_map.mp hdm with ⟨chunk, hc, rfl⟩
  exact hmain _ chunk hc

/-- C7 witness: the bound at a concrete chunk of a concrete run. -/
theorem c7_witness :
    List.length ("hello".data) ≤ 1000 ∧ "hello".data ≠ ([] : List Char) :=
  (c7_bounded_nonempty 1000 100 (by decide)).1 ("hello".data) ("hello".data)
    (by decide)

theorem chooseCutFrom_all_none (s : List Char) (cs co : Nat)
    (seps : List (List Char))
    (hall : ∀ sep ∈ seps, sepCut s sep cs co = none) :
    chooseCutFrom s cs co seps = cs := by
  induction seps with
  | nil => rfl
  | cons sep rest ih =>
    have h1 := hall sep (List.mem_cons_self sep rest)
    simp only [chooseCutFrom, h1]
    exact ih (fun x hx => hall x (List.mem_cons_of_mem _ hx))

theorem chooseCutFrom_first (s : List Char) (cs co : Nat) :
    ∀ l1 : List (List Char), ∀ sep l2 p,
      (∀ x ∈ l1, sepCut s x cs co = none) →
      sepCut s sep cs co = some p →
      chooseCutFrom s cs co (l1 ++ sep :: l2) = p := by
  intro l1
  induction l1 with
  | nil =>
    intro sep l2 p _ hsp
    simp only [List.nil_append, chooseCutFrom, hsp]
  | cons x xs ih =>
    intro sep l2 p hall hsp
    have hx := hall x (List.mem_cons_self x xs)
    simp only [List.cons_append, chooseCutFrom, hx]
    exact ih sep l2 p (fun y hy => hall y (List.mem_cons_of_mem _ hy)) hsp

/-- C8: the separator priority list is paragraph break, line break, sentence
punctuation followed by a space, then plain space; the cut for an oversized
piece comes from the first separator of the list that admits a cut, and only
when no separator admits one is the piece cut hard at chunk_size; finer
separators are never consulted for a piece once a coarser one succeeds, and a
piece within chunk_size is never split at all. -/
theorem c8_separator_priority :
    (separators = ["\n\n".data, "\n".data, ". ".data, "! ".data, "? ".data,
        " ".data])
    ∧ (∀ s : List Char, ∀ cs co : Nat,
        (∀ sep ∈ separators, sepCut s sep cs co = none) →
        chooseCut s cs co = cs)
    ∧ (∀ s : List Char, ∀ cs co : Nat, ∀ l1 : List (List Char),
        ∀ sep : List Char, ∀ l2 : List (List Char), ∀ p : Nat,
        separators = l1 ++ sep :: l2 →
        (∀ x ∈ l1, sepCut s x cs co = none) → sepCut s sep cs co = some p →
        chooseCut s cs co = p)
    ∧ (∀ s : List Char, ∀ cs co : Nat, s ≠ [] → s.length ≤ cs →
        split_text s cs co = [s]) := by
  refine ⟨rfl, ?_, ?_, ?_⟩
  · intro s cs co hall
    exact chooseCutFrom_all_none s cs co separators hall
  · intro s cs co l1 sep l2 p hsep hall hsp
    rw [chooseCut, hsep]
    exact chooseCutFrom_first s cs co l1 sep l2 p hall hsp
  · intro s cs co hne hlen
    exact split_text_short s cs co hne hlen

/-- C8 witness: a paragraph break inside the window wins over the later plain
spaces, so the cut lands right after it. -/
theorem c8_witness : chooseCut ("ab\n\ncd efgh".data) 6 1 = 4 :=
  c8_separator_priority.2.2.1 ("ab\n\ncd efgh".data) 6 1 []
    ("\n\n".data) ["\n".data, ". ".data, "! ".data, "? ".data, " ".data] 4
    rfl (fun x hx => absurd hx (List.not_mem_nil x)) (by decide)

/-- C10: the splitter yields no chunk on the empty description, for any
parameters, so a recipe whose description is empty contributes no Document at
all to the docs list. -/
theorem c10_empty_yields_nothing (cs co : Nat) (title : String) :
    split_text ([] : List Char) cs co = []
    ∧ make_docs [⟨title, ""⟩] cs co = [] := by
  constructor
  · rfl
  · rfl
